import Mathlib

/-!
Shallow embedding of `machineimages/pkg/machineimages/machine_images.go`
(gardener/landscaper-utils): the machine-image computation pipeline
(merge → dedupe → filter → group → sort → enrich).

Go slices become `List`, Go strings `String`.  A `MachineImageVersion` in Go
is an open map from string keys to arbitrary (JSON-like) values; it is
modelled as an association list in which the first binding of a key is the
authoritative one, and all map operations (lookup, store, iteration,
`reflect.DeepEqual`) are defined extensionally over that reading, matching
Go map semantics, which carry no entry order and no duplicate keys.

The repository file defines only the pipeline functions.  The data types
(`MachineImage`, `OsImage`, `OsImagesFilterKind`), the constants
(`OsImagesFilterKindAll`, `OsNameGardenLinux`), the version accessor
`getVersion` and the function `filterOsImages` live outside the provided
sources; those are modelled from the spec and are marked as such.

Go error returns are modelled as an explicit result type; the unguarded
dereference `*versionNumber` in `getFilteredMachineImages` (a run-time panic
when `getVersion` returns nil) is modelled as the `panicked` outcome.
-/

namespace MachineImages

/-- A JSON-like attribute value stored in a machine-image version record
(the Go side stores `interface{}` values). -/
inductive GoValue where
  | vStr (s : String)
  | vInt (n : Int)
  | vBool (b : Bool)
  | vNull
deriving DecidableEq, Repr

/-- Go type `MachineImageVersion`: an open map from string keys to values,
modelled as an association list whose first binding per key is authoritative. -/
abbrev MachineImageVersion := List (String × GoValue)

/-- Map lookup `m[k]`: the first binding of the key, if any. -/
def mvGet (v : MachineImageVersion) (k : String) : Option GoValue :=
  (v.find? (fun p => p.1 == k)).map (fun p => p.2)

/-- Map store `m[k] = x`: replace the first binding of the key, or append a
fresh binding when the key is absent. -/
def mvSet : MachineImageVersion → String → GoValue → MachineImageVersion
  | [], k, x => [(k, x)]
  | p :: rest, k, x => if p.1 = k then (k, x) :: rest else p :: mvSet rest k x

/-- The distinct keys of the association list, first occurrence kept: a Go
`range` over the map visits every key exactly once. -/
def dedupKeysGo (acc : List (String × GoValue)) :
    List (String × GoValue) → List (String × GoValue)
  | [] => acc
  | p :: rest =>
    if acc.any (fun q => q.1 == p.1) then dedupKeysGo acc rest
    else dedupKeysGo (acc ++ [p]) rest

/-- One-binding-per-key normal form of a version record, used to iterate it
the way Go `range` iterates a map. -/
def dedupKeys (l : MachineImageVersion) : MachineImageVersion :=
  dedupKeysGo [] l

/-- Modelled from the spec: the version accessor (`getVersion` in Go, defined
outside the provided sources).  The version record is "required to contain a
recognizable 'version' field (extracted via a defined accessor)" and the
accessor "fails/returns nil if absent"; it yields the string stored under the
reserved key `version`, and nil (`none`) when that key is absent or not a
string. -/
def getVersion (v : MachineImageVersion) : Option String :=
  match mvGet v "version" with
  | some (GoValue.vStr s) => some s
  | _ => none

/-- Go struct `MachineImage`: an image name with its ordered version list. -/
structure MachineImage where
  name : String
  versions : List MachineImageVersion
deriving DecidableEq, Repr

/-- Go struct `OsImage`: one flat (name, version) pair. -/
structure OsImage where
  name : String
  version : MachineImageVersion
deriving DecidableEq, Repr

/-- Modelled from the spec: the distinguished OS name ("GardenLinux"), the
constant `OsNameGardenLinux` defined outside the provided sources. -/
def OsNameGardenLinux : String := "GardenLinux"

/-- Modelled from the spec: the enumerated filter-kind tag
(`OsImagesFilterKind`, defined outside the provided sources), "an enumerated
tag identifying a filter category (includes a special 'All' sentinel meaning
'no restriction')".  Kinds other than the sentinel carry their tag. -/
inductive OsImagesFilterKind where
  | all
  | kind (tag : String)
deriving DecidableEq, Repr

/-- Modelled from the spec: the "All" sentinel kind. -/
def OsImagesFilterKindAll : OsImagesFilterKind := OsImagesFilterKind.all

/-- The message of the single error: Go
`fmt.Errorf("exclude filter list contains element of include list")`. -/
def conflictingFiltersMsg : String :=
  "exclude filter list contains element of include list"

/-- Go `validateFilters`: scan the include list and return the
ConflictingFilters error at the first kind also present in the exclude
list. -/
def validateFilters :
    List OsImagesFilterKind → List OsImagesFilterKind → Option String
  | [], _ => none
  | i :: rest, excludeFilters =>
    if excludeFilters.any (fun e => i == e) then some conflictingFiltersMsg
    else validateFilters rest excludeFilters

/-- Go helper `contains`: membership of a string in a slice. -/
def contains : List String → String → Bool
  | [], _ => false
  | v :: rest, s => if v = s then true else contains rest s

/-- Go `flatImages`: one `OsImage` per (image, version) pair, source order
preserved. -/
def flatImages (images : List MachineImage) : List OsImage :=
  images.foldl
    (fun result nextImage =>
      result ++ nextImage.versions.map
        (fun nextVersion => { name := nextImage.name, version := nextVersion }))
    []

/-- `reflect.DeepEqual` on version records: Go maps compare extensionally,
key by key. -/
def mvEqv (v1 v2 : MachineImageVersion) : Bool :=
  (v1.map (fun p => p.1) ++ v2.map (fun p => p.1)).all
    (fun k => decide (mvGet v1 k = mvGet v2 k))

/-- `reflect.DeepEqual` on `OsImage`: equal names and extensionally equal
version records. -/
def osImageEqv (a b : OsImage) : Bool :=
  a.name == b.name && mvEqv a.version b.version

/-- The loop body of Go `removeDuplicates`: `result` is the output built so
far; an incoming entry deep-equal to one already kept is skipped. -/
def removeDuplicatesGo (result : List OsImage) : List OsImage → List OsImage
  | [] => result
  | nextImage :: rest =>
    if result.any (fun nextResult => osImageEqv nextImage nextResult) then
      removeDuplicatesGo result rest
    else removeDuplicatesGo (result ++ [nextImage]) rest

/-- Go `removeDuplicates`: stable first-occurrence deduplication under
`reflect.DeepEqual`. -/
def removeDuplicates (images : List OsImage) : List OsImage :=
  removeDuplicatesGo [] images

/-- Modelled from the spec: `filterOsImages` (defined outside the provided
sources).  "If include-filters reduce to the 'All' sentinel, no entries are
excluded by inclusion; otherwise only entries matching at least one include
kind survive.  Exclude-filters, if present, remove entries matching any
exclude kind", and it yields "an error if validation (4.1) failed upstream".
The kind-to-entry matching predicate is "an external capability, not
specified further"; it is taken as the explicit parameter `kindMatches`. -/
def filterOsImages (kindMatches : OsImagesFilterKind → OsImage → Bool)
    (images : List OsImage)
    (includeFilters excludeFilters : List OsImagesFilterKind) :
    Except String (List OsImage) :=
  match validateFilters includeFilters excludeFilters with
  | some msg => Except.error msg
  | none =>
    let included :=
      if includeFilters.contains OsImagesFilterKindAll then images
      else images.filter (fun img => includeFilters.any (fun k => kindMatches k img))
    Except.ok (included.filter
      (fun img => !excludeFilters.any (fun k => kindMatches k img)))

/-- The distinct image names of a flat list in first-seen order.  Go
`convertOsImagesToMachineImages` groups into a map whose iteration order is
unspecified; since the grouped names are distinct and the caller immediately
sorts by name with a stable sort, every iteration order yields the same final
sequence, and first-seen order is fixed here as the representative. -/
def firstSeenNames (images : List OsImage) : List String :=
  images.foldl
    (fun acc img => if acc.contains img.name then acc else acc ++ [img.name]) []

/-- Go `convertOsImagesToMachineImages`: group the flat list by name, each
name's versions in flat-list order. -/
def convertOsImagesToMachineImages (images : List OsImage) : List MachineImage :=
  (firstSeenNames images).map
    (fun n =>
      { name := n
        versions := (images.filter (fun i => i.name == n)).map
          (fun i => i.version) })

/-- One step of the stable insertion modelling `sort.SliceStable` with
comparator `Name i < Name j`: the new element goes after every element it is
not strictly below. -/
def insertImage (mi : MachineImage) : List MachineImage → List MachineImage
  | [] => [mi]
  | x :: xs =>
    if mi.name.data < x.name.data then mi :: x :: xs else x :: insertImage mi xs

/-- The first `sort.SliceStable` pass of `ComputeMachineImages`: stable sort
by name, ascending. -/
def sortImagesByName (l : List MachineImage) : List MachineImage :=
  l.foldl (fun acc mi => insertImage mi acc) []

/-- Both `sort.SliceStable` passes of `ComputeMachineImages`: sort by name,
then the second stable pass with comparator
`Name i == GardenLinux && Name j != GardenLinux`, which is exactly the stable
partition promoting GardenLinux-named images to the front. -/
def sortMachineImages (l : List MachineImage) : List MachineImage :=
  (sortImagesByName l).filter (fun mi => mi.name == OsNameGardenLinux)
    ++ (sortImagesByName l).filter (fun mi => mi.name != OsNameGardenLinux)

/-- The inner loop of Go `getVersionConfigInternal`: the first version record
whose version identifier equals the wanted one (`getVersion() != nil &&
*getVersion() == versionNumber`). -/
def findVersionIn (versionNumber : String) :
    List MachineImageVersion → Option MachineImageVersion
  | [] => none
  | nextVersion :: rest =>
    if getVersion nextVersion = some versionNumber then some nextVersion
    else findVersionIn versionNumber rest

/-- Go `getVersionConfigInternal`: linear scan of a provider catalog for the
first record matching (image name, version identifier); later images with the
same name are still scanned when an earlier one has no matching version. -/
def getVersionConfigInternal (imageName versionNumber : String) :
    List MachineImage → Option MachineImageVersion
  | [] => none
  | nextImage :: rest =>
    if nextImage.name = imageName then
      match findVersionIn versionNumber nextImage.versions with
      | some v => some v
      | none => getVersionConfigInternal imageName versionNumber rest
    else getVersionConfigInternal imageName versionNumber rest

/-- Go `getVersionConfig`: look the version up in the provider-landscape
catalog first, fall back to the provider-global catalog. -/
def getVersionConfig (imageName versionNumber : String)
    (providerLandscapeOsImages providerOsImages : List MachineImage) :
    Option MachineImageVersion :=
  match getVersionConfigInternal imageName versionNumber providerLandscapeOsImages with
  | some config => some config
  | none => getVersionConfigInternal imageName versionNumber providerOsImages

/-- The merge loop of `getFilteredMachineImages`:
`for nextKey, nextValue := range *config { nextVersion[nextKey] = nextValue }`.
Go `range` visits each key of the config map once. -/
def mergeConfig (nextVersion config : MachineImageVersion) : MachineImageVersion :=
  (dedupKeys config).foldl (fun acc p => mvSet acc p.1 p.2) nextVersion

/-- The version loop of Go `getFilteredMachineImages`: for each version, read
the version identifier and dereference it unconditionally (`*versionNumber`
panics — `none` here — when `getVersion` returned nil), look up the provider
config, and keep the merged version only when a config matched. -/
def enrichVersions (imageName : String)
    (providerLandscapeOsImages providerOsImages : List MachineImage) :
    List MachineImageVersion → Option (List MachineImageVersion)
  | [] => some []
  | nextVersion :: rest =>
    match getVersion nextVersion with
    | none => none
    | some versionNumber =>
      match getVersionConfig imageName versionNumber
          providerLandscapeOsImages providerOsImages with
      | some config =>
        (enrichVersions imageName providerLandscapeOsImages providerOsImages
          rest).map (fun tail => mergeConfig nextVersion config :: tail)
      | none =>
        enrichVersions imageName providerLandscapeOsImages providerOsImages rest

/-- Go `getFilteredMachineImages`: drop disabled image names, enrich every
remaining version with its provider config (dropping versions without one),
and keep only images left with at least one version.  `none` models the nil
dereference panic of the version loop. -/
def getFilteredMachineImages :
    List MachineImage → List String → List MachineImage → List MachineImage →
    Option (List MachineImage)
  | [], _, _, _ => some []
  | nextImage :: rest, disableMachineImages, providerLandscapeOsImages,
      providerOsImages =>
    if contains disableMachineImages nextImage.name then
      getFilteredMachineImages rest disableMachineImages
        providerLandscapeOsImages providerOsImages
    else
      match enrichVersions nextImage.name providerLandscapeOsImages
          providerOsImages nextImage.versions with
      | none => none
      | some versionsWithConfig =>
        match getFilteredMachineImages rest disableMachineImages
            providerLandscapeOsImages providerOsImages with
        | none => none
        | some tail =>
          some (if versionsWithConfig.length > 0 then
              { name := nextImage.name, versions := versionsWithConfig } :: tail
            else tail)

/-- The outcome of `ComputeMachineImages`: a result list, an error, or a
run-time panic. -/
inductive ComputeResult where
  | ok (images : List MachineImage)
  | err (msg : String)
  | panicked
deriving DecidableEq, Repr

/-- Lines 32–34 of `ComputeMachineImages`: an empty include list is replaced
by the single "All" sentinel before validation. -/
def effectiveIncludeFilters
    (includeFilters : List OsImagesFilterKind) : List OsImagesFilterKind :=
  if includeFilters.length = 0 then includeFilters ++ [OsImagesFilterKindAll]
  else includeFilters

/-- Go `ComputeMachineImages`.  The `ctx` and `log` parameters carry no data
flow (the log emits one informational event) and are dropped; the external
kind-matching predicate of the filter stage is the explicit parameter
`kindMatches`. -/
def ComputeMachineImages (kindMatches : OsImagesFilterKind → OsImage → Bool)
    (lssOsImages landscapeOsImages providerOsImages providerLandscapeOsImages :
      List MachineImage)
    (disableMachineImages : List String)
    (includeFilters excludeFilters : List OsImagesFilterKind) : ComputeResult :=
  match validateFilters (effectiveIncludeFilters includeFilters) excludeFilters with
  | some msg => ComputeResult.err msg
  | none =>
    match filterOsImages kindMatches
        (removeDuplicates (flatImages landscapeOsImages ++ flatImages lssOsImages))
        (effectiveIncludeFilters includeFilters) excludeFilters with
    | Except.error msg => ComputeResult.err msg
    | Except.ok flatOsImages =>
      if flatOsImages.length = 0 then ComputeResult.ok []
      else
        match getFilteredMachineImages
            (sortMachineImages (convertOsImagesToMachineImages flatOsImages))
            disableMachineImages providerLandscapeOsImages providerOsImages with
        | none => ComputeResult.panicked
        | some machineImages => ComputeResult.ok machineImages

/-- A provider catalog has a record matching (image name, version identifier):
the predicate the landscape-over-global preference is stated with. -/
def versionMatchExists (imageName versionNumber : String)
    (images : List MachineImage) : Bool :=
  images.any (fun mi =>
    mi.name == imageName
      && mi.versions.any (fun v => getVersion v == some versionNumber))

end MachineImages

namespace MachineImages

/-! ### Lemmas about the map model -/

theorem mvGet_nil (k : String) : mvGet [] k = none := rfl

theorem mvGet_cons (p : String × GoValue) (l : MachineImageVersion) (k : String) :
    mvGet (p :: l) k = if p.1 = k then some p.2 else mvGet l k := by
  unfold mvGet
  by_cases h : p.1 = k
  · rw [List.find?_cons_of_pos _ (by simp [h])]
    simp [h]
  · rw [List.find?_cons_of_neg _ (by simp [h])]
    simp [h]

theorem mvGet_mvSet (v : MachineImageVersion) (k : String) (x : GoValue)
    (k2 : String) :
    mvGet (mvSet v k x) k2 = if k2 = k then some x else mvGet v k2 := by
  induction v with
  | nil =>
    show mvGet [(k, x)] k2 = _
    rw [mvGet_cons]
    by_cases h : k2 = k
    · rw [if_pos h.symm, if_pos h]
    · rw [if_neg (fun hh : k = k2 => h hh.symm), if_neg h, mvGet_nil]
  | cons p rest ih =>
    show mvGet (if p.1 = k then (k, x) :: rest else p :: mvSet rest k x) k2 = _
    by_cases hp : p.1 = k
    · rw [if_pos hp, mvGet_cons, mvGet_cons]
      by_cases h : k2 = k
      · rw [if_pos h.symm, if_pos h]
      · rw [if_neg (fun hh : k = k2 => h hh.symm), if_neg h,
          if_neg (fun hh : p.1 = k2 => h (hp.symm.trans hh).symm)]
    · rw [if_neg hp, mvGet_cons, ih, mvGet_cons]
      by_cases h : k2 = k
      · rw [if_neg (fun hh : p.1 = k2 => hp (hh.trans h)), if_pos h, if_pos h]
      · rw [if_neg h, if_neg h]

theorem mvGet_append (l1 l2 : MachineImageVersion) (k : String) :
    mvGet (l1 ++ l2) k =
      match mvGet l1 k with
      | some x => some x
      | none => mvGet l2 k := by
  induction l1 with
  | nil => rw [List.nil_append, mvGet_nil]
  | cons p rest ih =>
    rw [List.cons_append, mvGet_cons, mvGet_cons]
    by_cases h : p.1 = k
    · rw [if_pos h, if_pos h]
    · rw [if_neg h, if_neg h, ih]

theorem mvGet_isSome_iff (l : MachineImageVersion) (k : String) :
    (mvGet l k).isSome = true ↔ k ∈ l.map (fun p => p.1) := by
  unfold mvGet
  cases hf : l.find? (fun p => p.1 == k) with
  | none =>
    simp only [Option.map_none', Option.isSome_none]
    constructor
    · intro h
      exact Bool.noConfusion h
    · intro h
      rcases List.mem_map.1 h with ⟨x, hx, hk⟩
      have hno := List.find?_eq_none.1 hf x hx
      simp only [beq_iff_eq] at hno
      exact absurd hk hno
  | some x =>
    simp only [Option.map_some', Option.isSome_some, true_iff]
    have hmem := List.mem_of_find?_eq_some hf
    have hpred := List.find?_some hf
    rw [beq_iff_eq] at hpred
    exact List.mem_map.2 ⟨_, hmem, hpred⟩

theorem mvGet_eq_none_of_not_mem {l : MachineImageVersion} {k : String}
    (h : k ∉ l.map (fun p => p.1)) : mvGet l k = none := by
  cases hg : mvGet l k with
  | none => rfl
  | some x =>
    exact absurd ((mvGet_isSome_iff l k).1 (by rw [hg]; rfl)) h

theorem mvGet_mem_of_some {l : MachineImageVersion} {k : String} {x : GoValue}
    (h : mvGet l k = some x) : k ∈ l.map (fun p => p.1) :=
  (mvGet_isSome_iff l k).1 (by rw [h]; rfl)

theorem dedupKeysGo_get (l : List (String × GoValue)) :
    ∀ (acc : List (String × GoValue)) (k : String),
      mvGet (dedupKeysGo acc l) k =
        match mvGet acc k with
        | some x => some x
        | none => mvGet l k := by
  induction l with
  | nil =>
    intro acc k
    cases h : mvGet acc k <;> simp [dedupKeysGo, h, mvGet_nil]
  | cons p rest ih =>
    intro acc k
    unfold dedupKeysGo
    by_cases hmem : acc.any (fun q => q.1 == p.1) = true
    · rw [if_pos hmem, ih]
      cases hacc : mvGet acc k with
      | some x => rfl
      | none =>
        by_cases hpk : p.1 = k
        · exfalso
          rcases List.any_eq_true.1 hmem with ⟨q, hq, hqe⟩
          rw [beq_iff_eq] at hqe
          have hkin : k ∈ acc.map (fun r => r.1) :=
            List.mem_map.2 ⟨q, hq, hqe.trans hpk⟩
          have hs := (mvGet_isSome_iff acc k).2 hkin
          rw [hacc] at hs
          exact Bool.noConfusion hs
        · rw [mvGet_cons, if_neg hpk]
    · rw [if_neg hmem, ih]
      cases hacc : mvGet acc k with
      | some x =>
        rw [mvGet_append, hacc]
      | none =>
        rw [mvGet_append, hacc, mvGet_cons, mvGet_cons, mvGet_nil]
        by_cases hpk : p.1 = k <;> simp [hpk]

theorem dedupKeys_get (l : MachineImageVersion) (k : String) :
    mvGet (dedupKeys l) k = mvGet l k := by
  unfold dedupKeys
  rw [dedupKeysGo_get, mvGet_nil]

theorem dedupKeysGo_keys_nodup (l : List (String × GoValue)) :
    ∀ acc : List (String × GoValue),
      (acc.map (fun p => p.1)).Nodup →
      ((dedupKeysGo acc l).map (fun p => p.1)).Nodup := by
  induction l with
  | nil => intro acc h; exact h
  | cons p rest ih =>
    intro acc h
    unfold dedupKeysGo
    by_cases hmem : acc.any (fun q => q.1 == p.1) = true
    · rw [if_pos hmem]
      exact ih acc h
    · rw [if_neg hmem]
      refine ih (acc ++ [p]) ?_
      rw [List.map_append, List.map_singleton]
      rw [List.nodup_append]
      refine ⟨h, List.nodup_singleton _, ?_⟩
      intro a ha hb
      rcases List.mem_map.1 ha with ⟨q, hq, hqa⟩
      rw [List.mem_singleton] at hb
      refine hmem (List.any_eq_true.2 ⟨q, hq, ?_⟩)
      rw [beq_iff_eq, hqa, hb]

theorem dedupKeys_keys_nodup (l : MachineImageVersion) :
    ((dedupKeys l).map (fun p => p.1)).Nodup :=
  dedupKeysGo_keys_nodup l [] List.nodup_nil

theorem foldl_mvSet_get (L : List (String × GoValue)) :
    ∀ (v : MachineImageVersion) (k : String),
      (L.map (fun p => p.1)).Nodup →
      mvGet (L.foldl (fun acc p => mvSet acc p.1 p.2) v) k =
        match mvGet L k with
        | some x => some x
        | none => mvGet v k := by
  induction L with
  | nil => intro v k _; rw [List.foldl_nil, mvGet_nil]
  | cons p rest ih =>
    intro v k hnd
    rw [List.map_cons, List.nodup_cons] at hnd
    rw [List.foldl_cons, ih _ k hnd.2, mvGet_cons]
    cases hr : mvGet rest k with
    | some x =>
      have hk : p.1 ≠ k := by
        intro hc
        exact hnd.1 (hc ▸ mvGet_mem_of_some hr)
      rw [if_neg hk]
    | none =>
      rw [mvGet_mvSet]
      by_cases h : k = p.1
      · rw [if_pos h, if_pos h.symm]
      · rw [if_neg h, if_neg (fun hh : p.1 = k => h hh.symm)]

theorem mergeConfig_get (v cfg : MachineImageVersion) (k : String) :
    mvGet (mergeConfig v cfg) k =
      match mvGet cfg k with
      | some x => some x
      | none => mvGet v k := by
  unfold mergeConfig
  rw [foldl_mvSet_get _ _ _ (dedupKeys_keys_nodup cfg), dedupKeys_get]


/-! ### Deep equality is an equivalence -/

theorem mvEqv_iff (v1 v2 : MachineImageVersion) :
    mvEqv v1 v2 = true ↔ ∀ k, mvGet v1 k = mvGet v2 k := by
  unfold mvEqv
  rw [List.all_eq_true]
  constructor
  · intro h k
    by_cases h1 : k ∈ v1.map (fun p => p.1)
    · exact of_decide_eq_true (h k (List.mem_append_left _ h1))
    · by_cases h2 : k ∈ v2.map (fun p => p.1)
      · exact of_decide_eq_true (h k (List.mem_append_right _ h2))
      · rw [mvGet_eq_none_of_not_mem h1, mvGet_eq_none_of_not_mem h2]
  · intro h k _
    exact decide_eq_true (h k)

theorem osImageEqv_iff (a b : OsImage) :
    osImageEqv a b = true ↔
      a.name = b.name ∧ ∀ k, mvGet a.version k = mvGet b.version k := by
  unfold osImageEqv
  rw [Bool.and_eq_true, beq_iff_eq, mvEqv_iff]

theorem osImageEqv_refl (a : OsImage) : osImageEqv a a = true :=
  (osImageEqv_iff a a).2 ⟨rfl, fun _ => rfl⟩

theorem osImageEqv_symm {a b : OsImage} (h : osImageEqv a b = true) :
    osImageEqv b a = true := by
  rcases (osImageEqv_iff a b).1 h with ⟨hn, hv⟩
  exact (osImageEqv_iff b a).2 ⟨hn.symm, fun k => (hv k).symm⟩

theorem osImageEqv_trans {a b c : OsImage} (h1 : osImageEqv a b = true)
    (h2 : osImageEqv b c = true) : osImageEqv a c = true := by
  rcases (osImageEqv_iff a b).1 h1 with ⟨hn1, hv1⟩
  rcases (osImageEqv_iff b c).1 h2 with ⟨hn2, hv2⟩
  exact (osImageEqv_iff a c).2 ⟨hn1.trans hn2, fun k => (hv1 k).trans (hv2 k)⟩

theorem osImageEqv_symm_false {a b : OsImage} (h : osImageEqv a b = false) :
    osImageEqv b a = false :=
  Bool.eq_false_iff.2 fun hc => Bool.eq_false_iff.1 h (osImageEqv_symm hc)

/-! ### The deduplicator -/

theorem removeDuplicatesGo_spec (xs : List OsImage) :
    ∀ acc : List OsImage,
      acc.Pairwise (fun a b => osImageEqv a b = false) →
      (∃ s, removeDuplicatesGo acc xs = acc ++ s ∧ s.Sublist xs)
        ∧ (removeDuplicatesGo acc xs).Pairwise (fun a b => osImageEqv a b = false)
        ∧ (∀ x ∈ xs, ∃ y ∈ removeDuplicatesGo acc xs, osImageEqv y x = true)
        ∧ (∀ y ∈ removeDuplicatesGo acc xs, y ∉ acc →
            ∃ l1 l2, xs = l1 ++ y :: l2 ∧ ∀ x ∈ l1, osImageEqv x y = false) := by
  induction xs with
  | nil =>
    intro acc hacc
    refine ⟨⟨[], by simp [removeDuplicatesGo], List.nil_sublist _⟩,
      hacc, by simp, ?_⟩
    intro y hy hyn
    exact absurd (by simpa [removeDuplicatesGo] using hy) hyn
  | cons x rest ih =>
    intro acc hacc
    show _ ∧ _
    unfold removeDuplicatesGo
    by_cases hfound : acc.any (fun nextResult => osImageEqv x nextResult) = true
    · rw [if_pos hfound]
      rcases List.any_eq_true.1 hfound with ⟨r, hr, hxr⟩
      rcases ih acc hacc with ⟨⟨s, hseq, hssub⟩, hpair, hcomp, hfirst⟩
      have hcross : ∀ a ∈ acc, ∀ b ∈ s, osImageEqv a b = false := by
        have := hseq ▸ hpair
        exact fun a hha b hhb => (List.pairwise_append.1 this).2.2 a hha b hhb
      refine ⟨⟨s, hseq, hssub.cons x⟩, hpair, ?_, ?_⟩
      · intro x2 hx2
        rcases List.mem_cons.1 hx2 with h | h
        · exact ⟨r, by rw [hseq]; exact List.mem_append_left _ hr,
            by rw [← h] at hxr; exact osImageEqv_symm hxr⟩
        · exact hcomp x2 h
      · intro y hy hyn
        rcases hfirst y hy hyn with ⟨l1, l2, hre, hl1⟩
        refine ⟨x :: l1, l2, by simp [hre], ?_⟩
        intro x2 hx2
        rcases List.mem_cons.1 hx2 with h | h
        · subst h
          have hys : y ∈ s := by
            rw [hseq] at hy
            rcases List.mem_append.1 hy with h | h
            · exact absurd h hyn
            · exact h
          have hry : osImageEqv r y = false := hcross r hr y hys
          refine Bool.eq_false_iff.2 fun hxy => ?_
          exact Bool.eq_false_iff.1 hry (osImageEqv_trans (osImageEqv_symm hxr) hxy)
        · exact hl1 x2 h
    · rw [if_neg hfound]
      have hxacc : ∀ r ∈ acc, osImageEqv x r = false := by
        intro r hr
        refine Bool.eq_false_iff.2 fun hc => ?_
        exact hfound (List.any_eq_true.2 ⟨r, hr, hc⟩)
      have hacc2 : (acc ++ [x]).Pairwise (fun a b => osImageEqv a b = false) := by
        rw [List.pairwise_append]
        refine ⟨hacc, List.pairwise_singleton _ _, ?_⟩
        intro a ha b hb
        rw [List.mem_singleton] at hb
        subst hb
        exact osImageEqv_symm_false (hxacc a ha)
      rcases ih (acc ++ [x]) hacc2 with ⟨⟨s, hseq, hssub⟩, hpair, hcomp, hfirst⟩
      have hseq2 : removeDuplicatesGo (acc ++ [x]) rest = acc ++ (x :: s) := by
        rw [hseq, List.append_assoc]
        rfl
      have hcross : ∀ a ∈ acc ++ [x], ∀ b ∈ s, osImageEqv a b = false := by
        have := hseq ▸ hpair
        exact fun a hha b hhb => (List.pairwise_append.1 this).2.2 a hha b hhb
      refine ⟨⟨x :: s, hseq2, hssub.cons₂ x⟩, hpair, ?_, ?_⟩
      · intro x2 hx2
        rcases List.mem_cons.1 hx2 with h | h
        · refine ⟨x, ?_, by rw [h]; exact osImageEqv_refl x⟩
          rw [hseq]
          exact List.mem_append_left _ (List.mem_append_right _ (List.mem_singleton_self x))
        · exact hcomp x2 h
      · intro y hy hyn
        by_cases hyx : y ∈ acc ++ [x]
        · have hyx2 : y = x := by
            rcases List.mem_append.1 hyx with h | h
            · exact absurd h hyn
            · exact List.mem_singleton.1 h
          exact ⟨[], rest, by simp [hyx2], by simp⟩
        · rcases hfirst y hy hyx with ⟨l1, l2, hre, hl1⟩
          refine ⟨x :: l1, l2, by simp [hre], ?_⟩
          intro x2 hx2
          rcases List.mem_cons.1 hx2 with h | h
          · subst h
            have hys : y ∈ s := by
              rw [hseq] at hy
              rcases List.mem_append.1 hy with h | h
              · exact absurd h hyx
              · exact h
            exact hcross x2 (List.mem_append_right _ (List.mem_singleton_self x2)) y hys
          · exact hl1 x2 h

theorem removeDuplicatesGo_of_pairwise (l : List OsImage) :
    ∀ acc : List OsImage,
      (acc ++ l).Pairwise (fun a b => osImageEqv a b = false) →
      removeDuplicatesGo acc l = acc ++ l := by
  induction l with
  | nil => intro acc _; simp [removeDuplicatesGo]
  | cons x rest ih =>
    intro acc hp
    have hcross := (List.pairwise_append.1 hp).2.2
    have hfound : acc.any (fun nextResult => osImageEqv x nextResult) = false := by
      rw [List.any_eq_false]
      intro r hr
      refine Bool.eq_false_iff.1 ?_
      exact osImageEqv_symm_false (hcross r hr x (List.mem_cons_self x rest))
    unfold removeDuplicatesGo
    rw [hfound]
    simp only [Bool.false_eq_true, if_false]
    have hp2 : ((acc ++ [x]) ++ rest).Pairwise (fun a b => osImageEqv a b = false) := by
      rw [List.append_assoc]
      exact (by simpa using hp)
    rw [ih (acc ++ [x]) hp2, List.append_assoc]
    rfl


/-- Claim C7: for every flat OsImage sequence, the deduplicator's output
contains no two structurally (deep-)equal entries, and it retains exactly the
first occurrence of each distinct entry in its original relative position
(stable, first-occurrence-kept): the output is a subsequence of the input, no
two of its entries are deep-equal, every input entry is represented by a
deep-equal output entry, and every output entry occurs in the input with no
deep-equal entry before it. -/
theorem removeDuplicates_stable_first_occurrences (xs : List OsImage) :
    (removeDuplicates xs).Sublist xs
      ∧ (removeDuplicates xs).Pairwise (fun a b => osImageEqv a b = false)
      ∧ (∀ x ∈ xs, ∃ y ∈ removeDuplicates xs, osImageEqv y x = true)
      ∧ (∀ y ∈ removeDuplicates xs,
          ∃ l1 l2, xs = l1 ++ y :: l2 ∧ ∀ x ∈ l1, osImageEqv x y = false) := by
  rcases removeDuplicatesGo_spec xs [] List.Pairwise.nil with
    ⟨⟨s, hseq, hssub⟩, hpair, hcomp, hfirst⟩
  refine ⟨?_, hpair, hcomp, fun y hy => hfirst y hy (List.not_mem_nil y)⟩
  show (removeDuplicatesGo [] xs).Sublist xs
  rw [hseq, List.nil_append]
  exact hssub

/-- Claim C8: deduplication is idempotent: running the deduplicator twice on
its own output yields the same output. -/
theorem removeDuplicates_idempotent (xs : List OsImage) :
    removeDuplicates (removeDuplicates xs) = removeDuplicates xs := by
  have hpair := (removeDuplicatesGo_spec xs [] List.Pairwise.nil).2.1
  have h := removeDuplicatesGo_of_pairwise (removeDuplicatesGo [] xs) []
    (by simpa using hpair)
  simpa [removeDuplicates] using h

/-! ### The validator -/

theorem validateFilters_conflict
    {includeFilters excludeFilters : List OsImagesFilterKind}
    {k : OsImagesFilterKind} (hi : k ∈ includeFilters) (he : k ∈ excludeFilters) :
    validateFilters includeFilters excludeFilters = some conflictingFiltersMsg := by
  induction includeFilters with
  | nil => cases hi
  | cons i rest ih =>
    unfold validateFilters
    rcases List.mem_cons.1 hi with h | h
    · rw [if_pos (List.any_eq_true.2 ⟨k, he, by rw [beq_iff_eq]; exact h.symm⟩)]
    · by_cases ha : excludeFilters.any (fun e => i == e) = true
      · rw [if_pos ha]
      · rw [if_neg ha]
        exact ih h

/-- Claim C1: for every combination of inputs, if the include-filter list and
the exclude-filter list share at least one kind, `ComputeMachineImages` fails
with the ConflictingFilters error and returns no machine-image result. -/
theorem computeMachineImages_conflicting_filters_error
    (kindMatches : OsImagesFilterKind → OsImage → Bool)
    (lssOsImages landscapeOsImages providerOsImages providerLandscapeOsImages :
      List MachineImage)
    (disableMachineImages : List String)
    (includeFilters excludeFilters : List OsImagesFilterKind)
    (h : ∃ k, k ∈ includeFilters ∧ k ∈ excludeFilters) :
    ComputeMachineImages kindMatches lssOsImages landscapeOsImages
      providerOsImages providerLandscapeOsImages disableMachineImages
      includeFilters excludeFilters = ComputeResult.err conflictingFiltersMsg := by
  rcases h with ⟨k, hi, he⟩
  have heff : effectiveIncludeFilters includeFilters = includeFilters := by
    unfold effectiveIncludeFilters
    rw [if_neg]
    cases includeFilters with
    | nil => cases hi
    | cons a rest => simp
  unfold ComputeMachineImages
  rw [heff, validateFilters_conflict hi he]

/-- Claim C10: an empty include-filter list is replaced by the single "All"
sentinel before filter validation runs; consequently a call with an empty
include-filter list and an exclude-filter list containing the "All" kind
fails with the ConflictingFilters error even though the caller's two literal
sets are disjoint. -/
theorem computeMachineImages_empty_include_all_sentinel
    (kindMatches : OsImagesFilterKind → OsImage → Bool)
    (lssOsImages landscapeOsImages providerOsImages providerLandscapeOsImages :
      List MachineImage)
    (disableMachineImages : List String)
    (excludeFilters : List OsImagesFilterKind)
    (h : OsImagesFilterKindAll ∈ excludeFilters) :
    effectiveIncludeFilters [] = [OsImagesFilterKindAll]
      ∧ ComputeMachineImages kindMatches lssOsImages landscapeOsImages
          providerOsImages providerLandscapeOsImages disableMachineImages
          [] excludeFilters = ComputeResult.err conflictingFiltersMsg := by
  refine ⟨rfl, ?_⟩
  unfold ComputeMachineImages
  rw [show effectiveIncludeFilters [] = [OsImagesFilterKindAll] from rfl,
    validateFilters_conflict (List.mem_singleton_self _) h]


/-! ### The provider-config lookup -/

theorem getVersion_eq_some {v : MachineImageVersion} {vn : String}
    (h : getVersion v = some vn) : mvGet v "version" = some (GoValue.vStr vn) := by
  unfold getVersion at h
  cases hg : mvGet v "version" with
  | none => rw [hg] at h; exact Option.noConfusion h
  | some x =>
    rw [hg] at h
    cases x with
    | vStr s => rw [Option.some.injEq] at h; rw [h]
    | vInt n => exact Option.noConfusion h
    | vBool b => exact Option.noConfusion h
    | vNull => exact Option.noConfusion h

theorem findVersionIn_some {vn : String} {vs : List MachineImageVersion}
    {v : MachineImageVersion} (h : findVersionIn vn vs = some v) :
    v ∈ vs ∧ getVersion v = some vn := by
  induction vs with
  | nil => exact Option.noConfusion h
  | cons v0 rest ih =>
    unfold findVersionIn at h
    by_cases hv : getVersion v0 = some vn
    · rw [if_pos hv, Option.some.injEq] at h
      exact ⟨List.mem_cons.2 (Or.inl h.symm), h ▸ hv⟩
    · rw [if_neg hv] at h
      rcases ih h with ⟨h1, h2⟩
      exact ⟨List.mem_cons.2 (Or.inr h1), h2⟩

theorem findVersionIn_isSome_iff (vn : String) (vs : List MachineImageVersion) :
    (findVersionIn vn vs).isSome = true
      ↔ vs.any (fun v => getVersion v == some vn) = true := by
  induction vs with
  | nil => simp [findVersionIn]
  | cons v0 rest ih =>
    unfold findVersionIn
    by_cases hv : getVersion v0 = some vn
    · simp [hv]
    · rw [if_neg hv, List.any_cons, ih]
      have : (getVersion v0 == some vn) = false := by
        rw [beq_eq_false_iff_ne]
        exact hv
      rw [this, Bool.false_or]

theorem getVersionConfigInternal_some {imageName versionNumber : String}
    {images : List MachineImage} {cfg : MachineImageVersion}
    (h : getVersionConfigInternal imageName versionNumber images = some cfg) :
    getVersion cfg = some versionNumber
      ∧ ∃ mi ∈ images, mi.name = imageName ∧ cfg ∈ mi.versions := by
  induction images with
  | nil => exact Option.noConfusion h
  | cons mi rest ih =>
    unfold getVersionConfigInternal at h
    by_cases hn : mi.name = imageName
    · rw [if_pos hn] at h
      cases hf : findVersionIn versionNumber mi.versions with
      | some v =>
        rw [hf, Option.some.injEq] at h
        rcases findVersionIn_some hf with ⟨hmem, hv⟩
        exact ⟨h ▸ hv, mi, List.mem_cons_self mi rest, hn, h ▸ hmem⟩
      | none =>
        rw [hf] at h
        rcases ih h with ⟨h1, mi2, hmi2, h2, h3⟩
        exact ⟨h1, mi2, List.mem_cons.2 (Or.inr hmi2), h2, h3⟩
    · rw [if_neg hn] at h
      rcases ih h with ⟨h1, mi2, hmi2, h2, h3⟩
      exact ⟨h1, mi2, List.mem_cons.2 (Or.inr hmi2), h2, h3⟩

theorem getVersionConfigInternal_isSome_iff
    (imageName versionNumber : String) (images : List MachineImage) :
    (getVersionConfigInternal imageName versionNumber images).isSome = true
      ↔ versionMatchExists imageName versionNumber images = true := by
  induction images with
  | nil => simp [getVersionConfigInternal, versionMatchExists]
  | cons mi rest ih =>
    unfold getVersionConfigInternal versionMatchExists
    rw [List.any_cons]
    by_cases hn : mi.name = imageName
    · rw [if_pos hn]
      cases hf : findVersionIn versionNumber mi.versions with
      | some v =>
        have hany := (findVersionIn_isSome_iff versionNumber mi.versions).1
          (by rw [hf]; rfl)
        simp [hn, hany]
      | none =>
        have hany : (mi.versions.any fun v => getVersion v == some versionNumber)
            = false := by
          rw [← Bool.not_eq_true]
          intro hc
          have := (findVersionIn_isSome_iff versionNumber mi.versions).2 hc
          rw [hf] at this
          exact Bool.noConfusion this
        rw [hany]
        unfold versionMatchExists at ih
        simp only [Bool.and_false, Bool.false_or]
        exact ih
    · rw [if_neg hn]
      have hne : (mi.name == imageName) = false := by
        rw [beq_eq_false_iff_ne]
        exact hn
      rw [hne]
      unfold versionMatchExists at ih
      simp only [Bool.false_and, Bool.false_or]
      exact ih

/-- Claim C4: for every (image name, version identifier) pair that has a
matching config record in both the provider-landscape catalog and the
provider-global catalog, the enrichment lookup returns the provider-landscape
record; the provider-global catalog is consulted only when the
provider-landscape catalog has no match. -/
theorem getVersionConfig_landscape_precedence
    (imageName versionNumber : String)
    (providerLandscapeOsImages providerOsImages : List MachineImage) :
    (versionMatchExists imageName versionNumber providerLandscapeOsImages = true →
        getVersionConfig imageName versionNumber providerLandscapeOsImages
            providerOsImages
          = getVersionConfigInternal imageName versionNumber
              providerLandscapeOsImages
        ∧ (getVersionConfigInternal imageName versionNumber
            providerLandscapeOsImages).isSome = true)
      ∧ (versionMatchExists imageName versionNumber providerLandscapeOsImages
            = false →
        getVersionConfig imageName versionNumber providerLandscapeOsImages
            providerOsImages
          = getVersionConfigInternal imageName versionNumber providerOsImages) := by
  constructor
  · intro h
    have hs := (getVersionConfigInternal_isSome_iff imageName versionNumber
      providerLandscapeOsImages).2 h
    obtain ⟨cfg, hcfg⟩ := Option.isSome_iff_exists.1 hs
    unfold getVersionConfig
    rw [hcfg]
    exact ⟨rfl, rfl⟩
  · intro h
    have hnone : getVersionConfigInternal imageName versionNumber
        providerLandscapeOsImages = none := by
      cases hc : getVersionConfigInternal imageName versionNumber
          providerLandscapeOsImages with
      | none => rfl
      | some cfg =>
        have := (getVersionConfigInternal_isSome_iff imageName versionNumber
          providerLandscapeOsImages).1 (by rw [hc]; rfl)
        rw [this] at h
        exact Bool.noConfusion h
    unfold getVersionConfig
    rw [hnone]


theorem getVersionConfig_some {imageName versionNumber : String}
    {providerLandscapeOsImages providerOsImages : List MachineImage}
    {cfg : MachineImageVersion}
    (h : getVersionConfig imageName versionNumber providerLandscapeOsImages
      providerOsImages = some cfg) : getVersion cfg = some versionNumber := by
  unfold getVersionConfig at h
  cases hl : getVersionConfigInternal imageName versionNumber
      providerLandscapeOsImages with
  | some cfg2 =>
    rw [hl, Option.some.injEq] at h
    exact h ▸ (getVersionConfigInternal_some hl).1
  | none =>
    rw [hl] at h
    exact (getVersionConfigInternal_some h).1

/-! ### The enrichment stage -/

theorem contains_iff (l : List String) (s : String) :
    contains l s = true ↔ s ∈ l := by
  induction l with
  | nil => simp [contains]
  | cons v rest ih =>
    unfold contains
    by_cases h : v = s
    · simp [h]
    · rw [if_neg h, ih, List.mem_cons]
      constructor
      · exact Or.inr
      · rintro (hh | hh)
        · exact absurd hh.symm h
        · exact hh

theorem enrichVersions_mem {imageName : String}
    {providerLandscapeOsImages providerOsImages : List MachineImage}
    {vs ws : List MachineImageVersion}
    (h : enrichVersions imageName providerLandscapeOsImages providerOsImages vs
      = some ws) :
    ∀ w ∈ ws, ∃ v ∈ vs, ∃ vn cfg, getVersion v = some vn
      ∧ getVersionConfig imageName vn providerLandscapeOsImages providerOsImages
          = some cfg
      ∧ w = mergeConfig v cfg := by
  induction vs generalizing ws with
  | nil =>
    unfold enrichVersions at h
    rw [Option.some.injEq] at h
    subst h
    intro w hw
    cases hw
  | cons v0 rest ih =>
    unfold enrichVersions at h
    cases hgv : getVersion v0 with
    | none => rw [hgv] at h; exact Option.noConfusion h
    | some vn =>
      rw [hgv] at h
      simp only [] at h
      cases hcfg : getVersionConfig imageName vn providerLandscapeOsImages
          providerOsImages with
      | some cfg =>
        rw [hcfg] at h
        simp only [] at h
        cases he : enrichVersions imageName providerLandscapeOsImages
            providerOsImages rest with
        | none => rw [he, Option.map_none'] at h; exact Option.noConfusion h
        | some tail =>
          rw [he, Option.map_some', Option.some.injEq] at h
          subst h
          intro w hw
          rcases List.mem_cons.1 hw with hww | hww
          · exact ⟨v0, List.mem_cons_self _ _, vn, cfg, hgv, hcfg, hww⟩
          · rcases ih he w hww with ⟨v, hv, vn2, cfg2, a, b, c⟩
            exact ⟨v, List.mem_cons.2 (Or.inr hv), vn2, cfg2, a, b, c⟩
      | none =>
        rw [hcfg] at h
        intro w hw
        rcases ih h w hw with ⟨v, hv, vn2, cfg2, a, b, c⟩
        exact ⟨v, List.mem_cons.2 (Or.inr hv), vn2, cfg2, a, b, c⟩

theorem getFilteredMachineImages_mem :
    ∀ (mis : List MachineImage) (dis : List String)
      (pl pg : List MachineImage) (out : List MachineImage),
      getFilteredMachineImages mis dis pl pg = some out →
      ∀ mi ∈ out, contains dis mi.name = false ∧ mi.versions ≠ []
        ∧ ∃ mi0 ∈ mis, mi0.name = mi.name
            ∧ enrichVersions mi.name pl pg mi0.versions = some mi.versions := by
  intro mis
  induction mis with
  | nil =>
    intro dis pl pg out h mi hmi
    unfold getFilteredMachineImages at h
    rw [Option.some.injEq] at h
    subst h
    cases hmi
  | cons mi0 rest ih =>
    intro dis pl pg out h mi hmi
    unfold getFilteredMachineImages at h
    by_cases hd : contains dis mi0.name = true
    · rw [if_pos hd] at h
      rcases ih dis pl pg out h mi hmi with ⟨h1, h2, mi1, hmi1, h3, h4⟩
      exact ⟨h1, h2, mi1, List.mem_cons.2 (Or.inr hmi1), h3, h4⟩
    · rw [if_neg hd] at h
      cases he : enrichVersions mi0.name pl pg mi0.versions with
      | none => rw [he] at h; exact Option.noConfusion h
      | some vs =>
        rw [he] at h
        cases hg : getFilteredMachineImages rest dis pl pg with
        | none => rw [hg] at h; exact Option.noConfusion h
        | some tail =>
          rw [hg, Option.some.injEq] at h
          subst h
          by_cases hlen : vs.length > 0
          · rw [if_pos hlen] at hmi
            rcases List.mem_cons.1 hmi with hc | hc
            · subst hc
              refine ⟨by rw [Bool.eq_false_iff]; exact hd, ?_,
                mi0, List.mem_cons_self _ _, rfl, he⟩
              intro hnil
              have hnil2 : vs = [] := hnil
              rw [hnil2] at hlen
              exact absurd hlen (by simp)
            · rcases ih dis pl pg tail hg mi hc with ⟨h1, h2, mi1, hmi1, h3, h4⟩
              exact ⟨h1, h2, mi1, List.mem_cons.2 (Or.inr hmi1), h3, h4⟩
          · rw [if_neg hlen] at hmi
            rcases ih dis pl pg tail hg mi hmi with ⟨h1, h2, mi1, hmi1, h3, h4⟩
            exact ⟨h1, h2, mi1, List.mem_cons.2 (Or.inr hmi1), h3, h4⟩

theorem getFilteredMachineImages_names_sublist :
    ∀ (mis : List MachineImage) (dis : List String)
      (pl pg : List MachineImage) (out : List MachineImage),
      getFilteredMachineImages mis dis pl pg = some out →
      (out.map (fun mi => mi.name)).Sublist (mis.map (fun mi => mi.name)) := by
  intro mis
  induction mis with
  | nil =>
    intro dis pl pg out h
    unfold getFilteredMachineImages at h
    rw [Option.some.injEq] at h
    subst h
    exact List.Sublist.refl _
  | cons mi0 rest ih =>
    intro dis pl pg out h
    unfold getFilteredMachineImages at h
    by_cases hd : contains dis mi0.name = true
    · rw [if_pos hd] at h
      exact (ih dis pl pg out h).cons _
    · rw [if_neg hd] at h
      cases he : enrichVersions mi0.name pl pg mi0.versions with
      | none => rw [he] at h; exact Option.noConfusion h
      | some vs =>
        rw [he] at h
        cases hg : getFilteredMachineImages rest dis pl pg with
        | none => rw [hg] at h; exact Option.noConfusion h
        | some tail =>
          rw [hg, Option.some.injEq] at h
          subst h
          by_cases hlen : vs.length > 0
          · rw [if_pos hlen, List.map_cons, List.map_cons]
            exact (ih dis pl pg tail hg).cons₂ _
          · rw [if_neg hlen, List.map_cons]
            exact (ih dis pl pg tail hg).cons _

/-! ### Unfolding the pipeline -/

theorem computeMachineImages_ok_elim
    {kindMatches : OsImagesFilterKind → OsImage → Bool}
    {lssOsImages landscapeOsImages providerOsImages providerLandscapeOsImages :
      List MachineImage}
    {disableMachineImages : List String}
    {includeFilters excludeFilters : List OsImagesFilterKind}
    {out : List MachineImage}
    (h : ComputeMachineImages kindMatches lssOsImages landscapeOsImages
      providerOsImages providerLandscapeOsImages disableMachineImages
      includeFilters excludeFilters = ComputeResult.ok out) :
    out = [] ∨ ∃ flat : List OsImage,
      getFilteredMachineImages
        (sortMachineImages (convertOsImagesToMachineImages flat))
        disableMachineImages providerLandscapeOsImages providerOsImages
        = some out := by
  unfold ComputeMachineImages at h
  cases hv : validateFilters (effectiveIncludeFilters includeFilters)
      excludeFilters with
  | some msg => rw [hv] at h; exact ComputeResult.noConfusion h
  | none =>
    rw [hv] at h
    simp only [] at h
    cases hf : filterOsImages kindMatches
        (removeDuplicates (flatImages landscapeOsImages ++ flatImages lssOsImages))
        (effectiveIncludeFilters includeFilters) excludeFilters with
    | error msg => rw [hf] at h; exact ComputeResult.noConfusion h
    | ok flat =>
      rw [hf] at h
      simp only [] at h
      by_cases hlen : flat.length = 0
      · rw [if_pos hlen] at h
        left
        injection h with h2
        exact h2.symm
      · rw [if_neg hlen] at h
        cases hg : getFilteredMachineImages
            (sortMachineImages (convertOsImagesToMachineImages flat))
            disableMachineImages providerLandscapeOsImages providerOsImages with
        | none => rw [hg] at h; exact ComputeResult.noConfusion h
        | some imgs =>
          rw [hg] at h
          injection h with h2
          exact Or.inr ⟨flat, by rw [hg, h2]⟩


/-- Claim C3: every version present in the final output has been merged with
a matching provider config record, so it carries the `version` field sourced
from the provider-landscape or provider-global catalog; every output version
arises as the merge of an original version with a config record matched by
`getVersionConfig` (hence a version with no match in either catalog is never
in the output), and every output image has a non-empty version list (an image
whose version list becomes empty is dropped). -/
theorem computeMachineImages_output_versions_have_provider_config
    (kindMatches : OsImagesFilterKind → OsImage → Bool)
    (lssOsImages landscapeOsImages providerOsImages providerLandscapeOsImages :
      List MachineImage)
    (disableMachineImages : List String)
    (includeFilters excludeFilters : List OsImagesFilterKind)
    (out : List MachineImage)
    (h : ComputeMachineImages kindMatches lssOsImages landscapeOsImages
      providerOsImages providerLandscapeOsImages disableMachineImages
      includeFilters excludeFilters = ComputeResult.ok out) :
    ∀ mi ∈ out, mi.versions ≠ []
      ∧ ∀ v ∈ mi.versions, ∃ vn cfg,
          getVersionConfig mi.name vn providerLandscapeOsImages providerOsImages
            = some cfg
          ∧ mvGet cfg "version" = some (GoValue.vStr vn)
          ∧ mvGet v "version" = some (GoValue.vStr vn)
          ∧ ∃ orig, getVersion orig = some vn ∧ v = mergeConfig orig cfg := by
  intro mi hmi
  rcases computeMachineImages_ok_elim h with hout | ⟨flat, hg⟩
  · subst hout
    cases hmi
  · rcases getFilteredMachineImages_mem _ _ _ _ _ hg mi hmi with
      ⟨_, hne, mi0, _, _, henr⟩
    refine ⟨hne, ?_⟩
    intro v hv
    rcases enrichVersions_mem henr v hv with ⟨orig, _, vn, cfg, hgv, hcfg, hmerge⟩
    have hver : mvGet cfg "version" = some (GoValue.vStr vn) :=
      getVersion_eq_some (getVersionConfig_some hcfg)
    refine ⟨vn, cfg, hcfg, hver, ?_, orig, hgv, hmerge⟩
    rw [hmerge, mergeConfig_get, hver]

/-- Claim C9: for every version that survives enrichment, the merge of its
matched provider config record is exactly: every key present in the config
record maps to the config record's value in the output version, and every key
of the original version record not present in the config record keeps its
original value. -/
theorem computeMachineImages_merge_semantics
    (kindMatches : OsImagesFilterKind → OsImage → Bool)
    (lssOsImages landscapeOsImages providerOsImages providerLandscapeOsImages :
      List MachineImage)
    (disableMachineImages : List String)
    (includeFilters excludeFilters : List OsImagesFilterKind)
    (out : List MachineImage)
    (h : ComputeMachineImages kindMatches lssOsImages landscapeOsImages
      providerOsImages providerLandscapeOsImages disableMachineImages
      includeFilters excludeFilters = ComputeResult.ok out) :
    ∀ mi ∈ out, ∀ v ∈ mi.versions, ∃ orig vn cfg,
      getVersion orig = some vn
      ∧ getVersionConfig mi.name vn providerLandscapeOsImages providerOsImages
          = some cfg
      ∧ ∀ k, mvGet v k =
          match mvGet cfg k with
          | some x => some x
          | none => mvGet orig k := by
  intro mi hmi v hv
  rcases computeMachineImages_ok_elim h with hout | ⟨flat, hg⟩
  · subst hout
    cases hmi
  · rcases getFilteredMachineImages_mem _ _ _ _ _ hg mi hmi with
      ⟨_, _, mi0, _, _, henr⟩
    rcases enrichVersions_mem henr v hv with ⟨orig, _, vn, cfg, hgv, hcfg, hmerge⟩
    exact ⟨orig, vn, cfg, hgv, hcfg, fun k => by rw [hmerge, mergeConfig_get]⟩

/-- Claim C5: for every input and every name in the disable list, no machine
image with that name appears in the output of `ComputeMachineImages`,
regardless of whether provider config records match its versions. -/
theorem computeMachineImages_disabled_names_absent
    (kindMatches : OsImagesFilterKind → OsImage → Bool)
    (lssOsImages landscapeOsImages providerOsImages providerLandscapeOsImages :
      List MachineImage)
    (disableMachineImages : List String)
    (includeFilters excludeFilters : List OsImagesFilterKind)
    (name0 : String) (out : List MachineImage)
    (hdis : name0 ∈ disableMachineImages)
    (h : ComputeMachineImages kindMatches lssOsImages landscapeOsImages
      providerOsImages providerLandscapeOsImages disableMachineImages
      includeFilters excludeFilters = ComputeResult.ok out) :
    ∀ mi ∈ out, mi.name ≠ name0 := by
  intro mi hmi
  rcases computeMachineImages_ok_elim h with hout | ⟨flat, hg⟩
  · subst hout
    cases hmi
  · rcases getFilteredMachineImages_mem _ _ _ _ _ hg mi hmi with ⟨hc, _⟩
    intro hne
    rw [Bool.eq_false_iff] at hc
    exact hc ((contains_iff _ _).2 (by rw [hne]; exact hdis))


/-! ### The sorter -/

theorem insertImage_perm (mi : MachineImage) (l : List MachineImage) :
    (insertImage mi l).Perm (mi :: l) := by
  induction l with
  | nil => exact List.Perm.refl _
  | cons x xs ih =>
    unfold insertImage
    by_cases hlt : mi.name.data < x.name.data
    · rw [if_pos hlt]
    · rw [if_neg hlt]
      exact (ih.cons x).trans (List.Perm.swap mi x xs)

theorem sortImagesByName_foldl_perm (l : List MachineImage) :
    ∀ acc : List MachineImage,
      (l.foldl (fun acc mi => insertImage mi acc) acc).Perm (acc ++ l) := by
  induction l with
  | nil => intro acc; simp
  | cons x rest ih =>
    intro acc
    rw [List.foldl_cons]
    refine (ih (insertImage x acc)).trans ?_
    refine ((insertImage_perm x acc).append_right rest).trans ?_
    rw [List.cons_append]
    exact List.perm_middle.symm

theorem sortImagesByName_perm (l : List MachineImage) :
    (sortImagesByName l).Perm l := by
  have h := sortImagesByName_foldl_perm l []
  rw [List.nil_append] at h
  exact h

theorem insertImage_pairwise {mi : MachineImage} :
    ∀ {l : List MachineImage},
      l.Pairwise (fun a b => a.name.data ≤ b.name.data) →
      (insertImage mi l).Pairwise (fun a b => a.name.data ≤ b.name.data) := by
  intro l
  induction l with
  | nil => intro _; exact List.pairwise_singleton _ _
  | cons x xs ih =>
    intro hp
    rw [List.pairwise_cons] at hp
    unfold insertImage
    by_cases hlt : mi.name.data < x.name.data
    · rw [if_pos hlt, List.pairwise_cons]
      constructor
      · intro b hb
        rcases List.mem_cons.1 hb with hbb | hbb
        · rw [hbb]
          exact le_of_lt hlt
        · exact le_trans (le_of_lt hlt) (hp.1 b hbb)
      · rw [List.pairwise_cons]
        exact hp
    · rw [if_neg hlt, List.pairwise_cons]
      constructor
      · intro b hb
        rcases List.mem_cons.1 ((insertImage_perm mi xs).mem_iff.1 hb) with hbb | hbb
        · rw [hbb]
          exact le_of_not_lt hlt
        · exact hp.1 b hbb
      · exact ih hp.2

theorem sortImagesByName_foldl_pairwise (l : List MachineImage) :
    ∀ acc : List MachineImage,
      acc.Pairwise (fun a b => a.name.data ≤ b.name.data) →
      (l.foldl (fun acc mi => insertImage mi acc) acc).Pairwise
        (fun a b => a.name.data ≤ b.name.data) := by
  induction l with
  | nil => intro acc h; exact h
  | cons x rest ih =>
    intro acc h
    rw [List.foldl_cons]
    exact ih _ (insertImage_pairwise h)

theorem sortImagesByName_pairwise (l : List MachineImage) :
    (sortImagesByName l).Pairwise (fun a b => a.name.data ≤ b.name.data) :=
  sortImagesByName_foldl_pairwise l [] List.Pairwise.nil

theorem firstSeenNames_foldl_nodup (images : List OsImage) :
    ∀ acc : List String, acc.Nodup →
      (images.foldl
        (fun acc img => if acc.contains img.name then acc else acc ++ [img.name])
        acc).Nodup := by
  induction images with
  | nil => intro acc h; exact h
  | cons img rest ih =>
    intro acc h
    rw [List.foldl_cons]
    by_cases hc : acc.contains img.name = true
    · rw [if_pos hc]
      exact ih acc h
    · rw [if_neg hc]
      refine ih _ ?_
      rw [List.nodup_append]
      refine ⟨h, List.nodup_singleton _, ?_⟩
      intro a ha hb
      rw [List.mem_singleton] at hb
      subst hb
      exact hc (by simpa using ha)

theorem firstSeenNames_nodup (images : List OsImage) :
    (firstSeenNames images).Nodup :=
  firstSeenNames_foldl_nodup images [] List.nodup_nil

theorem convertOsImagesToMachineImages_names (images : List OsImage) :
    (convertOsImagesToMachineImages images).map (fun mi => mi.name)
      = firstSeenNames images := by
  unfold convertOsImagesToMachineImages
  rw [List.map_map]
  exact List.map_id' _

theorem sortMachineImages_names (l : List MachineImage)
    (hnd : (l.map (fun mi => mi.name)).Nodup) :
    ∃ glns restns : List String,
      (sortMachineImages l).map (fun mi => mi.name) = glns ++ restns
        ∧ (glns = [] ∨ glns = [OsNameGardenLinux])
        ∧ (∀ n ∈ restns, n ≠ OsNameGardenLinux)
        ∧ restns.Pairwise (fun a b => a.data < b.data) := by
  have hperm : (sortImagesByName l).Perm l := sortImagesByName_perm l
  have hnds : ((sortImagesByName l).map (fun mi => mi.name)).Nodup :=
    (hperm.map (fun mi => mi.name)).nodup_iff.2 hnd
  have hple := sortImagesByName_pairwise l
  have hltn : ((sortImagesByName l).map (fun mi => mi.name)).Pairwise
      (fun a b => a.data < b.data) := by
    have h1 : ((sortImagesByName l).map (fun mi => mi.name)).Pairwise
        (fun a b => a.data ≤ b.data) := List.pairwise_map.2 hple
    refine (h1.and hnds).imp (fun h => lt_of_le_of_ne h.1 ?_)
    intro hc
    exact h.2 (String.toList_inj.1 hc)
  refine ⟨((sortImagesByName l).filter
      (fun mi => mi.name == OsNameGardenLinux)).map (fun mi => mi.name),
    ((sortImagesByName l).filter
      (fun mi => mi.name != OsNameGardenLinux)).map (fun mi => mi.name),
    ?_, ?_, ?_, ?_⟩
  · unfold sortMachineImages
    rw [List.map_append]
  · have hall : ∀ n ∈ ((sortImagesByName l).filter
        (fun mi => mi.name == OsNameGardenLinux)).map (fun mi => mi.name),
        n = OsNameGardenLinux := by
      intro n hn
      rcases List.mem_map.1 hn with ⟨mi, hmi, hname⟩
      have hcond := (List.mem_filter.1 hmi).2
      rw [beq_iff_eq] at hcond
      rw [← hname]
      exact hcond
    have hglnd : (((sortImagesByName l).filter
        (fun mi => mi.name == OsNameGardenLinux)).map (fun mi => mi.name)).Nodup :=
      List.Nodup.sublist ((List.filter_sublist _).map _) hnds
    cases hcase : ((sortImagesByName l).filter
        (fun mi => mi.name == OsNameGardenLinux)).map (fun mi => mi.name) with
    | nil => exact Or.inl rfl
    | cons a t =>
      cases t with
      | nil =>
        refine Or.inr ?_
        rw [hall a (by rw [hcase]; exact List.mem_cons_self _ _)]
      | cons b t2 =>
        exfalso
        have ha2 : a = OsNameGardenLinux :=
          hall a (by rw [hcase]; exact List.mem_cons_self _ _)
        have hb2 : b = OsNameGardenLinux :=
          hall b
            (by rw [hcase]; exact List.mem_cons.2 (Or.inr (List.mem_cons_self _ _)))
        rw [hcase, List.nodup_cons] at hglnd
        refine hglnd.1 ?_
        rw [ha2, hb2]
        exact List.mem_cons_self _ _
  · intro n hn
    rcases List.mem_map.1 hn with ⟨mi, hmi, hname⟩
    have hcond := (List.mem_filter.1 hmi).2
    rw [bne_iff_ne] at hcond
    rw [← hname]
    exact hcond
  · exact List.Pairwise.sublist ((List.filter_sublist _).map _) hltn


theorem pairwise_filter_ne_of_sublist {ns restns : List String}
    (hsub : ns.Sublist restns)
    (hrest : ∀ n ∈ restns, n ≠ OsNameGardenLinux)
    (hpair : restns.Pairwise (fun a b => a.data < b.data)) :
    (ns.filter (fun n => n ≠ OsNameGardenLinux)).Pairwise
      (fun a b => a.data < b.data) := by
  refine List.Pairwise.sublist ?_ hpair
  have h1 := hsub.filter (fun n => decide (n ≠ OsNameGardenLinux))
  have h2 : restns.filter (fun n => decide (n ≠ OsNameGardenLinux)) = restns :=
    List.filter_eq_self.2 (fun a ha => decide_eq_true (hrest a ha))
  rw [h2] at h1
  exact h1

/-- Claim C6: in the final ordering of the output sequence, the image bearing
the distinguished name (GardenLinux), if present, is first, and all other
image names appear in strictly ascending alphabetical order among themselves.
Alphabetical order is the lexicographic order on the character lists of the
names (`a.data < b.data`), which is how Go compares strings. -/
theorem computeMachineImages_gardenlinux_first_rest_sorted
    (kindMatches : OsImagesFilterKind → OsImage → Bool)
    (lssOsImages landscapeOsImages providerOsImages providerLandscapeOsImages :
      List MachineImage)
    (disableMachineImages : List String)
    (includeFilters excludeFilters : List OsImagesFilterKind)
    (out : List MachineImage)
    (h : ComputeMachineImages kindMatches lssOsImages landscapeOsImages
      providerOsImages providerLandscapeOsImages disableMachineImages
      includeFilters excludeFilters = ComputeResult.ok out) :
    (OsNameGardenLinux ∈ out.map (fun mi => mi.name) →
        (out.map (fun mi => mi.name)).head? = some OsNameGardenLinux)
      ∧ ((out.map (fun mi => mi.name)).filter
          (fun n => n ≠ OsNameGardenLinux)).Pairwise
          (fun a b => a.data < b.data) := by
  rcases computeMachineImages_ok_elim h with hout | ⟨flat, hg⟩
  · subst hout
    exact ⟨fun hin => absurd hin (by simp), by simp⟩
  · have hnd : ((convertOsImagesToMachineImages flat).map
        (fun mi => mi.name)).Nodup := by
      rw [convertOsImagesToMachineImages_names]
      exact firstSeenNames_nodup flat
    rcases sortMachineImages_names _ hnd with ⟨glns, restns, hseq, hgl, hrest, hpair⟩
    have hsub := getFilteredMachineImages_names_sublist _ _ _ _ _ hg
    rw [hseq] at hsub
    rcases hgl with hgl | hgl
    · rw [hgl, List.nil_append] at hsub
      constructor
      · intro hin
        exact absurd rfl (hrest _ (hsub.subset hin))
      · exact pairwise_filter_ne_of_sublist hsub hrest hpair
    · rw [hgl] at hsub
      rcases List.sublist_cons_iff.1 hsub with hsub2 | ⟨r, hr, hsub2⟩
      · constructor
        · intro hin
          exact absurd rfl (hrest _ (hsub2.subset hin))
        · exact pairwise_filter_ne_of_sublist hsub2 hrest hpair
      · constructor
        · intro _
          rw [hr]
          rfl
        · rw [hr, List.filter_cons]
          have hdec : (decide (OsNameGardenLinux ≠ OsNameGardenLinux)) = false := by
            simp
          rw [hdec]
          simp only [Bool.false_eq_true, if_false]
          exact pairwise_filter_ne_of_sublist hsub2 hrest hpair


/-! ### Concrete evaluations -/

/-- Claim C2 (code bug): the claim says a version whose version-identifier
field is absent is silently dropped and the computation completes normally;
on the code, `getFilteredMachineImages` dereferences the nil result of
`getVersion` unconditionally, so the computation panics.  Evaluated at a
landscape catalog whose only version record has no `version` key (default
filters, nothing disabled), the pipeline reaches the enrichment stage and
panics instead of returning a result. -/
theorem computeMachineImages_missing_version_panics :
    ComputeMachineImages (fun _ _ => false) []
      [{ name := "Ubuntu", versions := [[("arch", GoValue.vStr "amd64")]] }]
      [] [] [] [] [] = ComputeResult.panicked := by decide

/-- Witness for C1 at a concrete conflicting input. -/
theorem computeMachineImages_conflicting_filters_error_witness :
    (∃ k : OsImagesFilterKind, k ∈ [OsImagesFilterKindAll]
        ∧ k ∈ [OsImagesFilterKindAll])
      ∧ ComputeMachineImages (fun _ _ => false) [] [] [] [] []
          [OsImagesFilterKindAll] [OsImagesFilterKindAll]
          = ComputeResult.err conflictingFiltersMsg :=
  ⟨⟨OsImagesFilterKindAll, List.mem_singleton_self _, List.mem_singleton_self _⟩,
    computeMachineImages_conflicting_filters_error (fun _ _ => false) [] [] [] []
      [] [OsImagesFilterKindAll] [OsImagesFilterKindAll]
      ⟨OsImagesFilterKindAll, List.mem_singleton_self _, List.mem_singleton_self _⟩⟩

/-- Witness for C10 at a concrete input: empty include list, exclude list
holding the All sentinel. -/
theorem computeMachineImages_empty_include_all_sentinel_witness :
    OsImagesFilterKindAll ∈ [OsImagesFilterKindAll]
      ∧ (effectiveIncludeFilters [] = [OsImagesFilterKindAll]
        ∧ ComputeMachineImages (fun _ _ => false) [] [] [] [] [] []
            [OsImagesFilterKindAll] = ComputeResult.err conflictingFiltersMsg) :=
  ⟨List.mem_singleton_self _,
    computeMachineImages_empty_include_all_sentinel (fun _ _ => false) [] [] [] []
      [] [OsImagesFilterKindAll] (List.mem_singleton_self _)⟩

/-- Witness for C5 at a concrete input: the only catalog image is disabled
and the output is empty. -/
theorem computeMachineImages_disabled_names_absent_witness :
    ("Ubuntu" ∈ ["Ubuntu"]
      ∧ ComputeMachineImages (fun _ _ => false) []
          [{ name := "Ubuntu", versions := [[("version", GoValue.vStr "20.04")]] }]
          [{ name := "Ubuntu", versions :=
              [[("version", GoValue.vStr "20.04"), ("arch", GoValue.vStr "amd64")]] }]
          [] ["Ubuntu"] [] [] = ComputeResult.ok [])
      ∧ ∀ mi ∈ ([] : List MachineImage), mi.name ≠ "Ubuntu" :=
  ⟨⟨List.mem_singleton_self _, by decide⟩,
    computeMachineImages_disabled_names_absent (fun _ _ => false) []
      [{ name := "Ubuntu", versions := [[("version", GoValue.vStr "20.04")]] }]
      [{ name := "Ubuntu", versions :=
          [[("version", GoValue.vStr "20.04"), ("arch", GoValue.vStr "amd64")]] }]
      [] ["Ubuntu"] [] [] "Ubuntu" [] (List.mem_singleton_self _) (by decide)⟩

/-- Witness for C3 at the spec's enrichment scenario. -/
theorem computeMachineImages_output_versions_have_provider_config_witness :
    (ComputeMachineImages (fun _ _ => false) []
        [{ name := "Ubuntu", versions := [[("version", GoValue.vStr "20.04")]] }]
        [{ name := "Ubuntu", versions :=
            [[("version", GoValue.vStr "20.04"), ("arch", GoValue.vStr "amd64")]] }]
        [] [] [] []
      = ComputeResult.ok
          [{ name := "Ubuntu", versions :=
              [[("version", GoValue.vStr "20.04"), ("arch", GoValue.vStr "amd64")]] }])
      ∧ ∀ mi ∈ [({ name := "Ubuntu", versions :=
            [[("version", GoValue.vStr "20.04"), ("arch", GoValue.vStr "amd64")]] } :
            MachineImage)],
          mi.versions ≠ []
          ∧ ∀ v ∈ mi.versions, ∃ vn cfg,
              getVersionConfig mi.name vn []
                  [{ name := "Ubuntu", versions :=
                      [[("version", GoValue.vStr "20.04"),
                        ("arch", GoValue.vStr "amd64")]] }]
                = some cfg
              ∧ mvGet cfg "version" = some (GoValue.vStr vn)
              ∧ mvGet v "version" = some (GoValue.vStr vn)
              ∧ ∃ orig, getVersion orig = some vn ∧ v = mergeConfig orig cfg :=
  ⟨by decide,
    computeMachineImages_output_versions_have_provider_config (fun _ _ => false) []
      [{ name := "Ubuntu", versions := [[("version", GoValue.vStr "20.04")]] }]
      [{ name := "Ubuntu", versions :=
          [[("version", GoValue.vStr "20.04"), ("arch", GoValue.vStr "amd64")]] }]
      [] [] [] []
      [{ name := "Ubuntu", versions :=
          [[("version", GoValue.vStr "20.04"), ("arch", GoValue.vStr "amd64")]] }]
      (by decide)⟩

/-- Witness for C9 at the spec's enrichment scenario. -/
theorem computeMachineImages_merge_semantics_witness :
    (ComputeMachineImages (fun _ _ => false) []
        [{ name := "Ubuntu", versions := [[("version", GoValue.vStr "20.04")]] }]
        [{ name := "Ubuntu", versions :=
            [[("version", GoValue.vStr "20.04"), ("arch", GoValue.vStr "amd64")]] }]
        [] [] [] []
      = ComputeResult.ok
          [{ name := "Ubuntu", versions :=
              [[("version", GoValue.vStr "20.04"), ("arch", GoValue.vStr "amd64")]] }])
      ∧ ∀ mi ∈ [({ name := "Ubuntu", versions :=
            [[("version", GoValue.vStr "20.04"), ("arch", GoValue.vStr "amd64")]] } :
            MachineImage)],
          ∀ v ∈ mi.versions, ∃ orig vn cfg,
            getVersion orig = some vn
            ∧ getVersionConfig mi.name vn []
                [{ name := "Ubuntu", versions :=
                    [[("version", GoValue.vStr "20.04"),
                      ("arch", GoValue.vStr "amd64")]] }]
                = some cfg
            ∧ ∀ k, mvGet v k =
                match mvGet cfg k with
                | some x => some x
                | none => mvGet orig k :=
  ⟨by decide,
    computeMachineImages_merge_semantics (fun _ _ => false) []
      [{ name := "Ubuntu", versions := [[("version", GoValue.vStr "20.04")]] }]
      [{ name := "Ubuntu", versions :=
          [[("version", GoValue.vStr "20.04"), ("arch", GoValue.vStr "amd64")]] }]
      [] [] [] []
      [{ name := "Ubuntu", versions :=
          [[("version", GoValue.vStr "20.04"), ("arch", GoValue.vStr "amd64")]] }]
      (by decide)⟩

/-- Witness for C6 at the spec's ordering scenario (input order Ubuntu before
GardenLinux; output promotes GardenLinux to the front). -/
theorem computeMachineImages_gardenlinux_first_rest_sorted_witness :
    (ComputeMachineImages (fun _ _ => false) []
        [{ name := "Ubuntu", versions := [[("version", GoValue.vStr "1.0")]] },
          { name := "GardenLinux", versions := [[("version", GoValue.vStr "1.0")]] }]
        [{ name := "Ubuntu", versions := [[("version", GoValue.vStr "1.0")]] },
          { name := "GardenLinux", versions := [[("version", GoValue.vStr "1.0")]] }]
        [] [] [] []
      = ComputeResult.ok
          [{ name := "GardenLinux", versions := [[("version", GoValue.vStr "1.0")]] },
            { name := "Ubuntu", versions := [[("version", GoValue.vStr "1.0")]] }])
      ∧ ((OsNameGardenLinux ∈
            ([{ name := "GardenLinux",
                versions := [[("version", GoValue.vStr "1.0")]] },
              { name := "Ubuntu",
                versions := [[("version", GoValue.vStr "1.0")]] }] :
              List MachineImage).map (fun mi => mi.name) →
          (([{ name := "GardenLinux",
                versions := [[("version", GoValue.vStr "1.0")]] },
              { name := "Ubuntu",
                versions := [[("version", GoValue.vStr "1.0")]] }] :
              List MachineImage).map (fun mi => mi.name)).head?
            = some OsNameGardenLinux)
        ∧ ((([{ name := "GardenLinux",
                versions := [[("version", GoValue.vStr "1.0")]] },
              { name := "Ubuntu",
                versions := [[("version", GoValue.vStr "1.0")]] }] :
              List MachineImage).map (fun mi => mi.name)).filter
            (fun n => n ≠ OsNameGardenLinux)).Pairwise
            (fun a b => a.data < b.data)) :=
  ⟨by decide,
    computeMachineImages_gardenlinux_first_rest_sorted (fun _ _ => false) []
      [{ name := "Ubuntu", versions := [[("version", GoValue.vStr "1.0")]] },
        { name := "GardenLinux", versions := [[("version", GoValue.vStr "1.0")]] }]
      [{ name := "Ubuntu", versions := [[("version", GoValue.vStr "1.0")]] },
        { name := "GardenLinux", versions := [[("version", GoValue.vStr "1.0")]] }]
      [] [] [] []
      [{ name := "GardenLinux", versions := [[("version", GoValue.vStr "1.0")]] },
        { name := "Ubuntu", versions := [[("version", GoValue.vStr "1.0")]] }]
      (by decide)⟩

/-- Witness for C4 at a concrete pair matched by both provider catalogs. -/
theorem getVersionConfig_landscape_precedence_witness :
    versionMatchExists "Ubuntu" "1.0"
        [{ name := "Ubuntu", versions :=
            [[("version", GoValue.vStr "1.0"),
              ("src", GoValue.vStr "landscape")]] }] = true
      ∧ (getVersionConfig "Ubuntu" "1.0"
            [{ name := "Ubuntu", versions :=
                [[("version", GoValue.vStr "1.0"),
                  ("src", GoValue.vStr "landscape")]] }]
            [{ name := "Ubuntu", versions :=
                [[("version", GoValue.vStr "1.0"),
                  ("src", GoValue.vStr "global")]] }]
          = getVersionConfigInternal "Ubuntu" "1.0"
              [{ name := "Ubuntu", versions :=
                  [[("version", GoValue.vStr "1.0"),
                    ("src", GoValue.vStr "landscape")]] }]
        ∧ (getVersionConfigInternal "Ubuntu" "1.0"
            [{ name := "Ubuntu", versions :=
                [[("version", GoValue.vStr "1.0"),
                  ("src", GoValue.vStr "landscape")]] }]).isSome = true) :=
  ⟨by decide,
    (getVersionConfig_landscape_precedence "Ubuntu" "1.0"
      [{ name := "Ubuntu", versions :=
          [[("version", GoValue.vStr "1.0"), ("src", GoValue.vStr "landscape")]] }]
      [{ name := "Ubuntu", versions :=
          [[("version", GoValue.vStr "1.0"), ("src", GoValue.vStr "global")]] }]).1
      (by decide)⟩

end MachineImages
